import Mathlib

/-!
# BFSK screen-translucency link: formal model

Shallow embedding of the two source files of the repository:

* `src/transmitter_bfsk_alpha.py` — modulator (`compute_alpha`,
  `get_current_bit`, configuration constants);
* `src/receiver_bfsk_decode.py` — channel preprocessor (mean/std
  normalization), bit segmenter (the `for`/`break` loop), spectral
  classifier (Hann window, real-input DFT, band-energy sums, decision
  rule) and evaluator (correct count, bit error rate, data rate).

Machine floats are modelled as real numbers (ℝ); the exact integer and
rational arithmetic of the evaluator is modelled over ℕ/ℚ.  Fallible
code (the evaluator's division by `total_bits`) returns `Option`.
-/

namespace BFSK

/-! ## Transmitter configuration (`transmitter_bfsk_alpha.py`, lines 15-25) -/

/-- `BIT_STRING = "1011001110001111"` -/
def BIT_STRING : List Char := "1011001110001111".toList

/-- `BIT_DURATION = 0.4` seconds per bit. -/
noncomputable def BIT_DURATION : ℝ := 2 / 5

/-- `FREQ_0 = 5.0` Hz, carrier for bit '0'. -/
def FREQ_0 : ℝ := 5

/-- `FREQ_1 = 10.0` Hz, carrier for bit '1'. -/
def FREQ_1 : ℝ := 10

/-- `BASE_ALPHA = 0.5`, constant background translucency. -/
noncomputable def BASE_ALPHA : ℝ := 1 / 2

/-- `DELTA_ALPHA = 0.1`, modulation amplitude. -/
noncomputable def DELTA_ALPHA : ℝ := 1 / 10

/-! ## Modulation parameters (spec §3 data model)

The spec's `ModulationParameters` record, with its validity invariant:
positive frequencies and bit duration, `base_level ∈ [0,1]`,
`delta_level ∈ [0, min(base_level, 1-base_level)]`, `freq0 ≠ freq1`. -/

structure ModParams where
  freq0 : ℝ
  freq1 : ℝ
  bit_duration : ℝ
  base_level : ℝ
  delta_level : ℝ

/-- Validity of `ModulationParameters` as stated in spec §3. -/
def ModParams.Valid (p : ModParams) : Prop :=
  0 < p.freq0 ∧ 0 < p.freq1 ∧ 0 < p.bit_duration ∧
    p.base_level ∈ Set.Icc (0:ℝ) 1 ∧
    p.delta_level ∈ Set.Icc (0:ℝ) (min p.base_level (1 - p.base_level)) ∧
    p.freq0 ≠ p.freq1

/-- The parameter values configured in both source files. -/
noncomputable def repoParams : ModParams :=
  { freq0 := 5, freq1 := 10, bit_duration := 2/5, base_level := 1/2, delta_level := 1/10 }

/-! ## Modulator (`transmitter_bfsk_alpha.py`, lines 41-71) -/

/-- `get_current_bit(t, bit_duration, bit_string)`: bit index is
`int(t // bit_duration)` (the floor for `t ≥ 0`); returns the index and
the bit character, or `none` once the index passes the end. -/
noncomputable def get_current_bit (t : ℝ) (bit_duration : ℝ) (bit_string : List Char) :
    Option (ℕ × Char) :=
  let bitIndex := ⌊t / bit_duration⌋₊
  if h : bitIndex < bit_string.length then some (bitIndex, bit_string.get ⟨bitIndex, h⟩)
  else none

/-- `compute_alpha(t_local, bit_value)` parametrized by `ModulationParameters`:
carrier is `freq0` when `bit_value == '0'`, otherwise `freq1`; the level
`base + delta·sin(2π·freq·t_local)` is clamped to `[0,1]` by
`max(0.0, min(1.0, ·))`. -/
noncomputable def computeAlphaP (p : ModParams) (t_local : ℝ) (bit_value : Char) : ℝ :=
  let freq := if bit_value = '0' then p.freq0 else p.freq1
  let alpha_norm := p.base_level + p.delta_level * Real.sin (2 * Real.pi * freq * t_local)
  max 0 (min 1 alpha_norm)

/-- `compute_alpha` exactly as in the source, using the module-level
configuration constants. -/
noncomputable def compute_alpha (t_local : ℝ) (bit_value : Char) : ℝ :=
  let freq := if bit_value = '0' then FREQ_0 else FREQ_1
  let alpha_norm := BASE_ALPHA + DELTA_ALPHA * Real.sin (2 * Real.pi * freq * t_local)
  max 0 (min 1 alpha_norm)

/-- One noiseless sample of the transmitted waveform at absolute time `t`:
look up the current bit with `get_current_bit` and modulate with
`compute_alpha`; after the last bit the screen is no longer driven
(modelled as 0). -/
noncomputable def txSample (p : ModParams) (bits : List Char) (t : ℝ) : ℝ :=
  match get_current_bit t p.bit_duration bits with
  | some ib => computeAlphaP p (t - ib.1 * p.bit_duration) ib.2
  | none => 0

/-- The noiseless sample stream: `count` samples taken at rate `fs`
(sample `n` at time `n / fs`). -/
noncomputable def txStream (p : ModParams) (bits : List Char) (fs : ℝ) (count : ℕ) : List ℝ :=
  (List.range count).map (fun n : ℕ => txSample p bits ((n : ℝ) / fs))

/-! ## Evaluator (`receiver_bfsk_decode.py`, lines 126-137)

`min_len = min(len(transmitted), len(received))`; `correct` counts the
matching positions; `ber = 1.0 - correct / total_bits` and
`data_rate = correct / (total_bits * BIT_DURATION)`.  In Python the two
divisions raise `ZeroDivisionError` exactly when `total_bits == 0`, so the
embedding returns `Option`, `none` exactly in that case.  The arithmetic
is exact rational arithmetic (`BIT_DURATION = 0.4 = 2/5`). -/

/-- `BIT_DURATION` of the receiver as a rational (0.4 s). -/
def BIT_DURATION_Q : ℚ := 2 / 5

/-- `correct = sum(1 for i in range(min_len) if transmitted[i] == received[i])`. -/
def correctCount (transmitted received : List Char) : ℕ :=
  (List.range (min transmitted.length received.length)).countP
    (fun i => transmitted.getD i ' ' = received.getD i ' ')

/-- The `ScoreReport` of spec §3: compared count, correct count, bit error
rate and data rate. -/
structure ScoreReport where
  compared_count : ℕ
  correct_count : ℕ
  bit_error_rate : ℚ
  data_rate_bps : ℚ
deriving DecidableEq

/-- Step 3 of the receiver.  Returns `none` when `total_bits = 0` (the
Python division by `total_bits` raises `ZeroDivisionError` there), else the
report with `ber = 1 - correct/total_bits` and
`data_rate = correct/(total_bits * BIT_DURATION)`. -/
def score (transmitted received : List Char) : Option ScoreReport :=
  let total_bits := min transmitted.length received.length
  if total_bits = 0 then none
  else
    let correct := correctCount transmitted received
    some { compared_count := total_bits
           correct_count := correct
           bit_error_rate := 1 - (correct : ℚ) / total_bits
           data_rate_bps := (correct : ℚ) / (total_bits * BIT_DURATION_Q) }

/-! ## Channel preprocessor (`receiver_bfsk_decode.py`, lines 78-79)

`signal = intensities - np.mean(intensities); signal = signal / np.std(signal)`.
`np.mean` is the sample mean, `np.std` the population standard deviation
(square root of the mean squared deviation, `ddof = 0`). -/

/-- `np.mean`: sum divided by length (`0/0 = 0` on the empty list, matching
Lean's total division; numpy would produce NaN there). -/
noncomputable def npMean (xs : List ℝ) : ℝ := xs.sum / xs.length

/-- Population variance: mean squared deviation from the mean. -/
noncomputable def npVar (xs : List ℝ) : ℝ :=
  ((xs.map (fun x => (x - npMean xs) ^ 2)).sum) / xs.length

/-- `np.std`: square root of the population variance. -/
noncomputable def npStd (xs : List ℝ) : ℝ := Real.sqrt (npVar xs)

/-- Lines 78-79 of the receiver: subtract the mean of the whole stream,
then divide elementwise by the standard deviation of the centered stream.
There is no guard: a zero standard deviation is passed straight to the
division (numpy yields NaN with only a RuntimeWarning; Lean's total
division yields 0). -/
noncomputable def normalize (xs : List ℝ) : List ℝ :=
  let signal := xs.map (fun x => x - npMean xs)
  signal.map (fun x => x / npStd signal)

/-! ## Bit segmenter (`receiver_bfsk_decode.py`, lines 86-100)

`samples_per_bit = int(round(BIT_DURATION * fps))`; then
`for i in range(num_bits): start = i*spb; end = start+spb;
if end > N: break` — the truncation prints a warning and breaks,
returning the windows gathered so far. -/

/-- `int(round(bit_duration * fs))`. -/
noncomputable def samplesPerBit (bit_duration fs : ℝ) : ℕ :=
  (round (bit_duration * fs)).toNat

/-- The `for i in range(fuel)` loop starting at index `i`: keep slicing
windows `[i·spb, i·spb + spb)` while they fit, stop at the first one that
does not. -/
def segmentsAux (signal : List ℝ) (spb : ℕ) : ℕ → ℕ → List (List ℝ)
  | 0, _ => []
  | fuel + 1, i =>
    if i * spb + spb ≤ signal.length then
      ((signal.drop (i * spb)).take spb) :: segmentsAux signal spb fuel (i + 1)
    else []

/-- The segmentation loop over `range num_bits` starting at `i = 0`. -/
def segments (signal : List ℝ) (spb numBits : ℕ) : List (List ℝ) :=
  segmentsAux signal spb numBits 0

/-! ## Spectral classifier (`receiver_bfsk_decode.py`, lines 93, 102-116) -/

/-- `scipy.signal.get_window("hann", M, fftbins=True)`: the periodic Hann
window `w[n] = 0.5 - 0.5·cos(2πn/M)`. -/
noncomputable def hann (M : ℕ) : List ℝ :=
  (List.range M).map (fun n : ℕ => 1/2 - 1/2 * Real.cos (2 * Real.pi * (n : ℝ) / (M : ℝ)))

/-- Bin `k` of `numpy.fft.rfft(x)`:
`Σₘ x[m]·exp(-2πi·k·m/len(x))` over the whole input. -/
noncomputable def rfftBin (x : List ℝ) (k : ℕ) : ℂ :=
  ∑ m ∈ Finset.range x.length,
    ((x.getD m 0 : ℝ) : ℂ) *
      Complex.exp (-(2 * (Real.pi : ℂ) * Complex.I * k * m) / (x.length : ℂ))

/-- `spectrum = np.abs(rfft(segment))`: the magnitude spectrum. -/
noncomputable def spectrum (x : List ℝ) (k : ℕ) : ℝ := Complex.abs (rfftBin x k)

/-- Lines 106-113: `freqs = rfftfreq(len(segment), d=1/fps)` has
`len//2 + 1` entries `k·fs/len`; `np.where((freqs >= f-tol) & (freqs <= f+tol))`
selects the bins of the band (both edges inclusive) and their magnitudes
are summed. -/
noncomputable def bandEnergy (x : List ℝ) (fs f tol : ℝ) : ℝ :=
  ∑ k ∈ (Finset.range (x.length / 2 + 1)).filter
      (fun k : ℕ => f - tol ≤ (k : ℝ) * fs / x.length ∧ (k : ℝ) * fs / x.length ≤ f + tol),
    spectrum x k

/-- Lines 102-116 for one segment: multiply elementwise by the Hann window
of length `samples_per_bit`, sum the magnitude spectrum over the two bands,
and decide `'0' if energy0 >= energy1 else '1'`. -/
noncomputable def classifySeg (fs f0 f1 tol : ℝ) (spb : ℕ) (seg : List ℝ) : Char :=
  let wseg := List.zipWith (fun a b => a * b) seg (hann spb)
  let energy0 := bandEnergy wseg fs f0 tol
  let energy1 := bandEnergy wseg fs f1 tol
  if energy0 ≥ energy1 then '0' else '1'

/-- Steps 1-2 of the receiver on an already-captured raw intensity stream:
normalize the whole signal, cut it into per-bit windows, classify each. -/
noncomputable def decodeBits (fs f0 f1 tol : ℝ) (spb numBits : ℕ) (raw : List ℝ) : List Char :=
  (segments (normalize raw) spb numBits).map (classifySeg fs f0 f1 tol spb)

/-- The full noiseless round trip of spec §8: modulate `bits` with
parameters `p`, sample at rate `fs` for `len(bits) · samples_per_bit`
frames, then run the receiver pipeline with matching parameters and
band tolerance `tol`. -/
noncomputable def roundTrip (p : ModParams) (fs tol : ℝ) (bits : List Char) : List Char :=
  let spb := samplesPerBit p.bit_duration fs
  decodeBits fs p.freq0 p.freq1 tol spb bits.length (txStream p bits fs (bits.length * spb))

/-! ## Auxiliary definitions for the round-trip analysis (claim C1)

With the repository parameters (`freq0 = 5`, `freq1 = 10`,
`bit_duration = 0.4`) and sample rate `fs = 40 = 4·freq1`, every per-bit
window holds 16 samples and both carriers hit exact DFT bins, so all
spectral sums live among the 16th roots of unity. -/

/-- The primitive 16th root of unity `exp(2πi/16)`. -/
noncomputable def zeta16 : ℂ := Complex.exp (2 * Real.pi * Complex.I / 16)

/-- One noiseless sample of the unclamped waveform at base level `base` and
modulation depth `delta`, for bit `b`, `r` frames into the bit window:
`base + delta·sin(2π·carrier(b)·(r/40))` with the repository carriers
5 Hz / 10 Hz. -/
noncomputable def pureSample (base delta : ℝ) (b : Char) (r : ℕ) : ℝ :=
  base + delta * Real.sin (2 * Real.pi * (if b = '0' then (5:ℝ) else 10) * ((r : ℝ) / 40))

/-- A 16-sample window `m ↦ c·sin(2π·a·m/16)` holding `a` cycles of a pure
tone of amplitude `c` (`a = 2` for carrier 5 Hz at fs = 40, `a = 4` for
carrier 10 Hz). -/
noncomputable def toneWindow (c : ℝ) (a : ℕ) : List ℝ :=
  (List.range 16).map (fun m : ℕ => c * Real.sin (2 * Real.pi * (a : ℝ) * (m : ℝ) / 16))

/-- Degenerate but spec-valid modulation parameters: `delta_level = 0`
(the spec allows the whole interval `[0, min(base, 1-base)]`). -/
noncomputable def degenParams : ModParams :=
  { freq0 := 5, freq1 := 10, bit_duration := 2/5, base_level := 1/2, delta_level := 0 }

/-! ## Theorems for the modulator and evaluator claims -/

/-- **C9** Modulator formula and range: for every `t_local` with
`0 ≤ t_local < bit_duration` and every bit value in `{'0','1'}`,
`compute_alpha` returns `base_level + delta_level·sin(2π·carrier·t_local)`
with `carrier('0') = FREQ_0` and `carrier('1') = FREQ_1`, clamped to
`[0,1]`; the returned amplitude always lies in `[0,1]`. -/
theorem compute_alpha_formula_and_range (t : ℝ) (b : Char)
    (_hb : b = '0' ∨ b = '1') (_ht : 0 ≤ t ∧ t < BIT_DURATION) :
    compute_alpha t b =
      max 0 (min 1 (BASE_ALPHA + DELTA_ALPHA *
        Real.sin (2 * Real.pi * (if b = '0' then FREQ_0 else FREQ_1) * t)))
    ∧ 0 ≤ compute_alpha t b ∧ compute_alpha t b ≤ 1 := by
  refine ⟨rfl, le_max_left _ _, ?_⟩
  have h1 : min 1 (BASE_ALPHA + DELTA_ALPHA *
      Real.sin (2 * Real.pi * (if b = '0' then FREQ_0 else FREQ_1) * t)) ≤ 1 :=
    min_le_left _ _
  calc compute_alpha t b = max 0 (min 1 (BASE_ALPHA + DELTA_ALPHA *
        Real.sin (2 * Real.pi * (if b = '0' then FREQ_0 else FREQ_1) * t))) := rfl
    _ ≤ 1 := max_le (by norm_num) h1

/-- Witness for C9 at `t = 0`, `b = '0'`. -/
theorem compute_alpha_formula_and_range_witness :
    (('0' : Char) = '0' ∨ ('0' : Char) = '1') ∧ (0 ≤ (0:ℝ) ∧ (0:ℝ) < BIT_DURATION) ∧
      (0 ≤ compute_alpha 0 '0' ∧ compute_alpha 0 '0' ≤ 1) ∧ compute_alpha 0 '0' = 1/2 := by
  have hb : ('0' : Char) = '0' ∨ ('0' : Char) = '1' := Or.inl rfl
  have ht : 0 ≤ (0:ℝ) ∧ (0:ℝ) < BIT_DURATION := by constructor <;> norm_num [BIT_DURATION]
  refine ⟨hb, ht, (compute_alpha_formula_and_range 0 '0' hb ht).2, ?_⟩
  simp [compute_alpha, FREQ_0, BASE_ALPHA, DELTA_ALPHA]
  norm_num

/-- **C10** Implicit carrier selection: any character other than `'0'`
selects the `FREQ_1` carrier, i.e. `compute_alpha t b = compute_alpha t '1'`
for every `b ≠ '0'`. -/
theorem compute_alpha_nonzero_bit (t : ℝ) (b : Char) (hb : b ≠ '0') :
    compute_alpha t b = compute_alpha t '1' := by
  simp [compute_alpha, hb]

/-- Witness for C10 at `t = 0`, `b = 'x'`. -/
theorem compute_alpha_nonzero_bit_witness :
    ('x' : Char) ≠ '0' ∧ compute_alpha 0 'x' = compute_alpha 0 '1' :=
  ⟨by decide, compute_alpha_nonzero_bit 0 'x' (by decide)⟩

/-- **C7** Evaluator formulas: with `k = min` of the two lengths and
`k > 0`, the report is
`⟨k, correct, 1 - correct/k, correct/(k·BIT_DURATION)⟩` where `correct`
counts the matching positions among the first `k`. -/
theorem score_formulas (t r : List Char) (h : 0 < min t.length r.length) :
    score t r = some
      { compared_count := min t.length r.length
        correct_count := correctCount t r
        bit_error_rate := 1 - (correctCount t r : ℚ) / ((min t.length r.length : ℕ) : ℚ)
        data_rate_bps := (correctCount t r : ℚ) / (((min t.length r.length : ℕ) : ℚ) * BIT_DURATION_Q) } := by
  have h0 : min t.length r.length ≠ 0 := Nat.pos_iff_ne_zero.mp h
  simp [score, h0]

/-- Witness for C7: the spec §8 scoring example, transmitted
`"1011001110001111"` against decoded `"1011001110001110"`:
`compared_count = 16`, `correct_count = 15`, `bit_error_rate = 1/16 = 0.0625`,
`data_rate_bps = 15 / (16 · BIT_DURATION)`. -/
theorem score_formulas_witness :
    0 < min ("1011001110001111".toList).length (("1011001110001110".toList)).length ∧
      score ("1011001110001111".toList) ("1011001110001110".toList) = some
        { compared_count := 16
          correct_count := 15
          bit_error_rate := 1/16
          data_rate_bps := 15 / (16 * BIT_DURATION_Q) } := by
  refine ⟨by decide, ?_⟩
  have hc : correctCount ("1011001110001111".toList) ("1011001110001110".toList) = 15 := by
    decide
  have hl : min ("1011001110001111".toList).length ("1011001110001110".toList).length = 16 := by
    decide
  rw [score_formulas _ _ (by decide), hc, hl]
  simp only [Option.some.injEq, ScoreReport.mk.injEq]
  refine ⟨trivial, trivial, by norm_num, by norm_num⟩

/-! ## Helper lemmas on list sums and the empty spectrum -/

theorem list_sum_map_sub (xs : List ℝ) (c : ℝ) :
    (xs.map (fun x => x - c)).sum = xs.sum - xs.length * c := by
  induction xs with
  | nil => simp
  | cons a l ih => simp [ih]; ring

theorem list_sum_map_div (xs : List ℝ) (c : ℝ) :
    (xs.map (fun x => x / c)).sum = xs.sum / c := by
  induction xs with
  | nil => simp
  | cons a l ih => simp [ih]; ring

theorem rfftBin_nil (k : ℕ) : rfftBin [] k = 0 := by
  simp [rfftBin]

theorem spectrum_nil (k : ℕ) : spectrum [] k = 0 := by
  simp [spectrum, rfftBin_nil]

theorem bandEnergy_nil (fs f tol : ℝ) : bandEnergy [] fs f tol = 0 :=
  Finset.sum_eq_zero (fun k _ => spectrum_nil k)

theorem hann_length (M : ℕ) : (hann M).length = M := by
  rw [hann, List.length_map, List.length_range]

/-- Sum of the centered stream is zero. -/
theorem sum_centered (xs : List ℝ) (h : (xs.length : ℝ) ≠ 0) :
    (xs.map (fun x => x - npMean xs)).sum = 0 := by
  have hms : (xs.length : ℝ) * (xs.sum / xs.length) = xs.sum := by field_simp
  rw [list_sum_map_sub, npMean, hms, sub_self]

/-- Mean of the centered stream is zero. -/
theorem npMean_centered (xs : List ℝ) (h : (xs.length : ℝ) ≠ 0) :
    npMean (xs.map (fun x => x - npMean xs)) = 0 := by
  rw [npMean, sum_centered xs h, zero_div]

/-- Centering does not change the population variance. -/
theorem npVar_centered (xs : List ℝ) (h : (xs.length : ℝ) ≠ 0) :
    npVar (xs.map (fun x => x - npMean xs)) = npVar xs := by
  unfold npVar
  rw [npMean_centered xs h, List.length_map, List.map_map]
  have hfun : ((fun x => (x - (0:ℝ)) ^ 2) ∘ fun x => x - npMean xs)
      = fun x => (x - npMean xs) ^ 2 := by
    funext x
    simp
  rw [hfun]

/-- Centering does not change the standard deviation. -/
theorem npStd_centered (xs : List ℝ) (h : (xs.length : ℝ) ≠ 0) :
    npStd (xs.map (fun x => x - npMean xs)) = npStd xs := by
  rw [npStd, npVar_centered xs h, npStd]

/-- `normalize` written as a single map: subtract the whole-stream mean,
divide by the whole-stream standard deviation. -/
theorem normalize_formula (xs : List ℝ) (hlen : (xs.length : ℝ) ≠ 0) :
    normalize xs = xs.map (fun x => (x - npMean xs) / npStd xs) := by
  show ((xs.map (fun x => x - npMean xs)).map
      (fun x => x / npStd (xs.map (fun y => y - npMean xs)))) = _
  rw [npStd_centered xs hlen, List.map_map]
  apply List.map_congr_left
  intro x _
  simp

/-- The population variance is nonnegative. -/
theorem npVar_nonneg (xs : List ℝ) : 0 ≤ npVar xs := by
  apply div_nonneg _ (Nat.cast_nonneg _)
  apply List.sum_nonneg
  intro a ha
  rcases List.mem_map.mp ha with ⟨x, _, rfl⟩
  positivity

/-! ## Theorems for the receiver claims -/

/-- Every constant list has zero population variance. -/
theorem npVar_replicate (n : ℕ) (c : ℝ) : npVar (List.replicate n c) = 0 := by
  rcases Nat.eq_zero_or_pos n with h | h
  · subst h
    simp [npVar]
  · have hn : ((List.replicate n c).length : ℝ) ≠ 0 := by
      rw [List.length_replicate]
      exact_mod_cast Nat.pos_iff_ne_zero.mp h
    have hμ : npMean (List.replicate n c) = c := by
      rw [npMean, List.sum_replicate, List.length_replicate, nsmul_eq_mul]
      rw [List.length_replicate] at hn
      field_simp
    rw [npVar, hμ, List.map_replicate]
    simp

/-- On an all-constant stream the code's division by `np.std = 0` yields
the all-zero list in the real-valued model (`x/0 = 0`; numpy yields NaN). -/
theorem normalize_replicate (n : ℕ) (c : ℝ) :
    normalize (List.replicate n c) = List.replicate n 0 := by
  show ((List.replicate n c).map (fun x => x - npMean (List.replicate n c))).map
      (fun x => x / npStd ((List.replicate n c).map (fun x => x - npMean (List.replicate n c))))
      = List.replicate n 0
  simp only [List.map_replicate]
  rw [npStd, npVar_replicate, Real.sqrt_zero, div_zero]

/-- **C5** (supporting theorem for a code bug): the preprocessor has no
error path — `normalize` is a total function — and on every all-constant
raw stream the divisor `np.std(signal)` is exactly `0`: the code divides
by zero instead of raising a `DegenerateSignal` error (numpy produces NaN
with only a RuntimeWarning; in the real-valued model `x/0 = 0`, so the
output is the all-zero list — in neither semantics is an error raised). -/
theorem normalize_constant_divides_by_zero (n : ℕ) (c : ℝ) :
    npStd ((List.replicate n c).map (fun x => x - npMean (List.replicate n c))) = 0
    ∧ normalize (List.replicate n c) = List.replicate n 0 := by
  refine ⟨?_, normalize_replicate n c⟩
  rw [List.map_replicate, npStd, npVar_replicate, Real.sqrt_zero]

/-- **C6** Normalization postcondition: for a raw stream of nonzero
variance, `normalize` subtracts the whole-stream mean and divides by the
whole-stream population standard deviation; the result has the same
length, mean `0` and standard deviation `1`. -/
theorem normalize_postcondition (xs : List ℝ) (hvar : npVar xs ≠ 0) :
    (normalize xs).length = xs.length
    ∧ normalize xs = xs.map (fun x => (x - npMean xs) / npStd xs)
    ∧ npMean (normalize xs) = 0
    ∧ npStd (normalize xs) = 1 := by
  have hne : xs ≠ [] := by
    rintro rfl
    simp [npVar] at hvar
  have hlen : (xs.length : ℝ) ≠ 0 := by
    have : xs.length ≠ 0 := fun h => hne (List.length_eq_zero.mp h)
    exact_mod_cast Nat.cast_ne_zero.mpr this
  have hvpos : 0 < npVar xs := lt_of_le_of_ne (npVar_nonneg xs) (Ne.symm hvar)
  have hstdpos : 0 < npStd xs := Real.sqrt_pos.mpr hvpos
  have hstdne : npStd xs ≠ 0 := ne_of_gt hstdpos
  have hsq : npStd xs ^ 2 = npVar xs := Real.sq_sqrt (le_of_lt hvpos)
  have hform := normalize_formula xs hlen
  have hlength : (normalize xs).length = xs.length := by
    rw [hform, List.length_map]
  have hmean0 : npMean (normalize xs) = 0 := by
    have hsum : (normalize xs).sum = 0 := by
      have : normalize xs = (xs.map (fun x => x - npMean xs)).map (fun y => y / npStd xs) := by
        rw [hform, List.map_map]
        apply List.map_congr_left
        intro x _
        simp
      rw [this, list_sum_map_div, sum_centered xs hlen, zero_div]
    rw [npMean, hsum, zero_div]
  refine ⟨hlength, hform, hmean0, ?_⟩
  have hvar1 : npVar (normalize xs) = 1 := by
    have hmap : (normalize xs).map (fun z => (z - npMean (normalize xs)) ^ 2)
        = (xs.map (fun x => (x - npMean xs) ^ 2)).map (fun y => y / npVar xs) := by
      rw [hmean0, hform, List.map_map, List.map_map]
      congr 1
      funext x
      simp only [Function.comp_apply, sub_zero, div_pow]
      rw [hsq]
    rw [npVar, hmap, list_sum_map_div, hlength]
    rw [div_div, mul_comm, ← div_div]
    have : (xs.map (fun x => (x - npMean xs) ^ 2)).sum / (xs.length : ℝ) = npVar xs := rfl
    rw [this, div_self hvar]
  rw [npStd, hvar1, Real.sqrt_one]

/-- Witness for C6 at `xs = [0, 2]` (variance 1). -/
theorem normalize_postcondition_witness :
    npVar [(0:ℝ), 2] ≠ 0
    ∧ npMean (normalize [(0:ℝ), 2]) = 0 ∧ npStd (normalize [(0:ℝ), 2]) = 1 := by
  have hm : npMean [(0:ℝ), 2] = 1 := by
    norm_num [npMean]
  have hv : npVar [(0:ℝ), 2] = 1 := by
    norm_num [npVar, hm]
  have hvne : npVar [(0:ℝ), 2] ≠ 0 := by rw [hv]; norm_num
  exact ⟨hvne, (normalize_postcondition _ hvne).2.2.1, (normalize_postcondition _ hvne).2.2.2⟩

/-- **C2** Classifier decision rule and tie-break: the emitted bit is `'0'`
when `energy0 ≥ energy1` (energies of the Hann-windowed segment) and `'1'`
otherwise; an exact tie `energy0 = energy1` always yields `'0'`. -/
theorem classify_decision_rule (fs f0 f1 tol : ℝ) (spb : ℕ) (seg : List ℝ) :
    (classifySeg fs f0 f1 tol spb seg =
      if bandEnergy (List.zipWith (fun a b => a * b) seg (hann spb)) fs f0 tol ≥
          bandEnergy (List.zipWith (fun a b => a * b) seg (hann spb)) fs f1 tol
      then '0' else '1')
    ∧ (bandEnergy (List.zipWith (fun a b => a * b) seg (hann spb)) fs f0 tol =
        bandEnergy (List.zipWith (fun a b => a * b) seg (hann spb)) fs f1 tol →
        classifySeg fs f0 f1 tol spb seg = '0') := by
  refine ⟨rfl, fun h => ?_⟩
  show (if bandEnergy (List.zipWith (fun a b => a * b) seg (hann spb)) fs f0 tol ≥
      bandEnergy (List.zipWith (fun a b => a * b) seg (hann spb)) fs f1 tol
    then '0' else '1') = '0'
  rw [h]
  simp

/-- Witness for C2: the empty segment has both band energies `0`
(an exact tie) and classifies as `'0'`. -/
theorem classify_decision_rule_witness :
    bandEnergy (List.zipWith (fun a b => a * b) ([] : List ℝ) (hann 4)) 40 5 1 =
      bandEnergy (List.zipWith (fun a b => a * b) ([] : List ℝ) (hann 4)) 40 10 1
    ∧ classifySeg 40 5 10 1 4 [] = '0' := by
  have h : bandEnergy (List.zipWith (fun a b => a * b) ([] : List ℝ) (hann 4)) 40 5 1 =
      bandEnergy (List.zipWith (fun a b => a * b) ([] : List ℝ) (hann 4)) 40 10 1 := by
    rw [List.zipWith_nil_left, bandEnergy_nil, bandEnergy_nil]
  exact ⟨h, (classify_decision_rule 40 5 10 1 4 []).2 h⟩

/-- **C3** Band-energy computation: for a segment of length
`samples_per_bit`, `energy0`/`energy1` are exactly the sums of the
real-input DFT magnitudes of the Hann-windowed segment over the bins
(spacing `fs / samples_per_bit`) whose frequency lies in the closed
interval `[f − tol, f + tol]` — both edges inclusive. -/
theorem bandEnergy_matches_spec (fs tol : ℝ) (spb : ℕ) (seg : List ℝ)
    (hlen : seg.length = spb) :
    ((List.zipWith (fun a b => a * b) seg (hann spb)).length = spb)
    ∧ (∀ f : ℝ, bandEnergy (List.zipWith (fun a b => a * b) seg (hann spb)) fs f tol =
        ∑ k ∈ (Finset.range (spb / 2 + 1)).filter
            (fun k : ℕ => (k : ℝ) * fs / spb ∈ Set.Icc (f - tol) (f + tol)),
          Complex.abs (rfftBin (List.zipWith (fun a b => a * b) seg (hann spb)) k)) := by
  have hwlen : (List.zipWith (fun a b => a * b) seg (hann spb)).length = spb := by
    rw [List.length_zipWith, hlen, hann_length, min_self]
  refine ⟨hwlen, fun f => ?_⟩
  unfold bandEnergy spectrum
  rw [hwlen]
  apply Finset.sum_congr _ (fun k _ => rfl)
  apply Finset.filter_congr
  intro k _
  rw [Set.mem_Icc]

/-- Witness for C3 at `seg = [1,0,0,0]`, `spb = 4`, `fs = 40`, `f = 5`,
`tol = 1`. -/
theorem bandEnergy_matches_spec_witness :
    ([(1:ℝ), 0, 0, 0].length = 4)
    ∧ bandEnergy (List.zipWith (fun a b => a * b) [(1:ℝ), 0, 0, 0] (hann 4)) 40 5 1 =
        ∑ k ∈ (Finset.range (4 / 2 + 1)).filter
            (fun k : ℕ => (k : ℝ) * 40 / (4:ℕ) ∈ Set.Icc ((5:ℝ) - 1) (5 + 1)),
          Complex.abs (rfftBin (List.zipWith (fun a b => a * b) [(1:ℝ), 0, 0, 0] (hann 4)) k) :=
  ⟨rfl, (bandEnergy_matches_spec 40 1 4 [(1:ℝ), 0, 0, 0] rfl).2 5⟩

/-- Closed form of the segmentation loop when the continuation condition
is `i < K`: starting at `i` with `fuel` iterations left, it yields the
`min fuel (K - i)` windows at indices `i, i+1, …`. -/
theorem segmentsAux_closed (s : List ℝ) (spb K : ℕ)
    (hcond : ∀ i, (i * spb + spb ≤ s.length ↔ i < K)) :
    ∀ fuel i, segmentsAux s spb fuel i =
      (List.range (min fuel (K - i))).map (fun j => (s.drop ((i + j) * spb)).take spb) := by
  intro fuel
  induction fuel with
  | zero => intro i; simp [segmentsAux]
  | succ n ih =>
    intro i
    by_cases h : i * spb + spb ≤ s.length
    · have hi : i < K := (hcond i).mp h
      have hmin : min (n + 1) (K - i) = min n (K - (i + 1)) + 1 := by omega
      rw [segmentsAux, if_pos h, ih (i + 1), hmin, List.range_succ_eq_map, List.map_cons,
        List.map_map]
      congr 1
      apply List.map_congr_left
      intro j _
      simp only [Function.comp_apply]
      have hj : i + 1 + j = i + Nat.succ j := by omega
      rw [hj]
    · have hi : ¬ i < K := fun hik => h ((hcond i).mpr hik)
      have hKi : K - i = 0 := by omega
      rw [segmentsAux, if_neg h, hKi]
      simp

/-- **C4** Segmenter truncation: when the signal length satisfies
`k·spb ≤ length < (k+1)·spb` with `k < N`, the segmenter yields exactly
`k` windows — never `k+1` or `N` — window `i` being the slice
`[i·spb, (i+1)·spb)`; the loop just breaks (a warning), it cannot fail. -/
theorem segments_truncation (s : List ℝ) (spb N k : ℕ)
    (hkN : k < N) (h1 : k * spb ≤ s.length) (h2 : s.length < (k + 1) * spb) :
    segments s spb N = (List.range k).map (fun i => (s.drop (i * spb)).take spb)
    ∧ (segments s spb N).length = k := by
  have hcond : ∀ i, (i * spb + spb ≤ s.length ↔ i < k) := by
    intro i
    constructor
    · intro h
      by_contra hik
      push_neg at hik
      have hk1 : (k + 1) * spb ≤ (i + 1) * spb :=
        Nat.mul_le_mul_right spb (by omega)
      have : (i + 1) * spb = i * spb + spb := by ring
      omega
    · intro hik
      have hik1 : (i + 1) * spb ≤ k * spb := Nat.mul_le_mul_right spb (by omega)
      have : (i + 1) * spb = i * spb + spb := by ring
      omega
  have hmain : segments s spb N = (List.range k).map (fun i => (s.drop (i * spb)).take spb) := by
    rw [segments, segmentsAux_closed s spb k hcond N 0]
    have hminN : min N (k - 0) = k := by omega
    rw [hminN]
    apply List.map_congr_left
    intro j _
    simp
  exact ⟨hmain, by rw [hmain, List.length_map, List.length_range]⟩

/-- Witness for C4: a 5-sample signal with `spb = 2` and `N = 4` yields
exactly `2` windows. -/
theorem segments_truncation_witness :
    2 < 4 ∧ 2 * 2 ≤ (List.replicate 5 (0:ℝ)).length
    ∧ (List.replicate 5 (0:ℝ)).length < (2 + 1) * 2
    ∧ (segments (List.replicate 5 (0:ℝ)) 2 4).length = 2 := by
  have h1 : 2 * 2 ≤ (List.replicate 5 (0:ℝ)).length := by simp
  have h2 : (List.replicate 5 (0:ℝ)).length < (2 + 1) * 2 := by simp
  exact ⟨by norm_num, h1, h2, (segments_truncation _ 2 4 2 (by norm_num) h1 h2).2⟩

/-- **C8** Empty-comparison failure: the evaluator fails (returns `none`,
modelling Python's `ZeroDivisionError` at `correct / total_bits`) exactly
when the overlap `min(len(transmitted), len(decoded))` is `0`; it is a pure
function of the two bit strings, so the decoded output is unaffected. -/
theorem score_none_iff (t r : List Char) :
    score t r = none ↔ min t.length r.length = 0 := by
  by_cases h : min t.length r.length = 0 <;> simp [score, h]

/-! ## Sixteenth roots of unity -/

theorem zeta16_prim : IsPrimitiveRoot zeta16 16 := by
  have h := Complex.isPrimitiveRoot_exp 16 (by norm_num)
  have harg : (2 * Real.pi * Complex.I / ((16:ℕ):ℂ)) = 2 * Real.pi * Complex.I / 16 := by
    norm_num
  rw [harg] at h
  exact h

theorem zeta16_pow16 : zeta16 ^ 16 = 1 := zeta16_prim.pow_eq_one

/-- Geometric sums of powers of `zeta16` over a full period. -/
theorem zeta16_geom (e : ℕ) :
    ∑ m ∈ Finset.range 16, (zeta16 ^ e) ^ m = if 16 ∣ e then 16 else 0 := by
  by_cases h : 16 ∣ e
  · rcases h with ⟨d, rfl⟩
    rw [if_pos ⟨d, rfl⟩, pow_mul, zeta16_pow16, one_pow]
    simp
  · rw [if_neg h]
    have hne : zeta16 ^ e ≠ 1 := fun h1 => h ((zeta16_prim.pow_eq_one_iff_dvd e).mp h1)
    rw [geom_sum_eq hne 16, ← pow_mul, mul_comm e 16, pow_mul, zeta16_pow16, one_pow,
      sub_self, zero_div]

/-- `exp((2π·a·m/16)·i)` is the `(a·m)`-th power of `zeta16`. -/
theorem exp_tone (a m : ℕ) :
    Complex.exp (((2 * Real.pi * (a:ℝ) * (m:ℝ) / 16 : ℝ) : ℂ) * Complex.I)
      = (zeta16 ^ a) ^ m := by
  rw [← pow_mul, zeta16, ← Complex.exp_nat_mul]
  congr 1
  push_cast
  ring

theorem exp_tone_neg (a m : ℕ) (ha : a ≤ 16) :
    Complex.exp (-(((2 * Real.pi * (a:ℝ) * (m:ℝ) / 16 : ℝ) : ℂ) * Complex.I))
      = (zeta16 ^ (16 - a)) ^ m := by
  rw [Complex.exp_neg, exp_tone a m]
  have hmul : (zeta16 ^ (16 - a)) ^ m * (zeta16 ^ a) ^ m = 1 := by
    rw [← mul_pow, ← pow_add, Nat.sub_add_cancel ha, zeta16_pow16, one_pow]
  exact (eq_inv_of_mul_eq_one_left hmul).symm ▸ rfl

/-- Real sine at the 16th-root angles, as a combination of root powers. -/
theorem sin_bridge (a m : ℕ) (ha : a ≤ 16) :
    ((Real.sin (2 * Real.pi * (a:ℝ) * (m:ℝ) / 16) : ℝ) : ℂ)
      = ((zeta16 ^ (16 - a)) ^ m - (zeta16 ^ a) ^ m) * Complex.I / 2 := by
  rw [Complex.ofReal_sin, Complex.sin, neg_mul, exp_tone_neg a m ha, exp_tone a m]

/-- Real cosine at the 16th-root angles, as a combination of root powers. -/
theorem cos_bridge (a m : ℕ) (ha : a ≤ 16) :
    ((Real.cos (2 * Real.pi * (a:ℝ) * (m:ℝ) / 16) : ℝ) : ℂ)
      = ((zeta16 ^ a) ^ m + (zeta16 ^ (16 - a)) ^ m) / 2 := by
  rw [Complex.ofReal_cos, Complex.cos, neg_mul, exp_tone_neg a m ha, exp_tone a m]

/-- The DFT twiddle factor of `rfftBin` at length 16. -/
theorem exp_dft (k m : ℕ) (hk : k ≤ 16) :
    Complex.exp (-(2 * (Real.pi : ℂ) * Complex.I * k * m) / ((16:ℕ) : ℂ))
      = (zeta16 ^ (16 - k)) ^ m := by
  rw [← exp_tone_neg k m hk]
  congr 1
  push_cast
  ring

theorem not_dvd_16_sub (a : ℕ) (h1 : 0 < a) (h2 : a < 16) : ¬ 16 ∣ (16 - a) := by
  intro hd
  have h3 : 0 < 16 - a := by omega
  have := Nat.le_of_dvd h3 hd
  omega

/-- A nontrivial pure tone sums to zero over a full period of 16 samples. -/
theorem sin_sum_zero16 (a : ℕ) (h1 : 0 < a) (h2 : a < 16) :
    ∑ m ∈ Finset.range 16, Real.sin (2 * Real.pi * (a:ℝ) * (m:ℝ) / 16) = 0 := by
  have hc : ∑ m ∈ Finset.range 16, ((Real.sin (2 * Real.pi * (a:ℝ) * (m:ℝ) / 16) : ℝ) : ℂ)
      = 0 := by
    rw [Finset.sum_congr rfl (fun m _ => sin_bridge a m (le_of_lt h2)),
      ← Finset.sum_div, ← Finset.sum_mul, Finset.sum_sub_distrib,
      zeta16_geom, zeta16_geom, if_neg (not_dvd_16_sub a h1 h2),
      if_neg (by omega : ¬ (16 ∣ a))]
    simp
  exact_mod_cast hc

/-- A nontrivial cosine tone sums to zero over a full period of 16 samples. -/
theorem cos_sum_zero16 (a : ℕ) (h1 : 0 < a) (h2 : a < 16) :
    ∑ m ∈ Finset.range 16, Real.cos (2 * Real.pi * (a:ℝ) * (m:ℝ) / 16) = 0 := by
  have hc : ∑ m ∈ Finset.range 16, ((Real.cos (2 * Real.pi * (a:ℝ) * (m:ℝ) / 16) : ℝ) : ℂ)
      = 0 := by
    rw [Finset.sum_congr rfl (fun m _ => cos_bridge a m (le_of_lt h2)),
      ← Finset.sum_div, Finset.sum_add_distrib,
      zeta16_geom, zeta16_geom, if_neg (not_dvd_16_sub a h1 h2),
      if_neg (by omega : ¬ (16 ∣ a))]
    simp
  exact_mod_cast hc

/-! ## Sums over sampled streams -/

theorem sum_map_range (n : ℕ) (f : ℕ → ℝ) :
    ((List.range n).map f).sum = ∑ m ∈ Finset.range n, f m := by
  induction n with
  | zero => simp
  | succ k ih =>
    rw [List.range_succ, List.map_append, List.sum_append, Finset.sum_range_succ, ih]
    simp

theorem sum_range_split {M : Type} [AddCommMonoid M] (f : ℕ → M) (a b : ℕ) :
    ∑ i ∈ Finset.range (a + b), f i
      = (∑ i ∈ Finset.range a, f i) + ∑ i ∈ Finset.range b, f (a + i) := by
  induction b with
  | zero => simp
  | succ k ih =>
    rw [← Nat.add_assoc, Finset.sum_range_succ, ih, Finset.sum_range_succ, add_assoc]

/-- Splitting a sum over `N·W` samples into `N` windows of `W` samples. -/
theorem sum_grid {M : Type} [AddCommMonoid M] (g : ℕ → M) (N W : ℕ) :
    ∑ n ∈ Finset.range (N * W), g n
      = ∑ j ∈ Finset.range N, ∑ r ∈ Finset.range W, g (j * W + r) := by
  induction N with
  | zero => simp
  | succ k ih =>
    rw [Nat.succ_mul, sum_range_split g (k * W) W, ih, Finset.sum_range_succ]

/-! ## Sample-level evaluation of the transmitter -/

theorem nat_floor_sixteenth (n : ℕ) : ⌊(n:ℝ) / 16⌋₊ = n / 16 := by
  rw [show (16:ℝ) = ((16:ℕ):ℝ) by norm_num, Nat.floor_div_nat, Nat.floor_natCast]

/-- Sample `n` of the noiseless stream at `fs = 40` with 0.4-second bits:
the current bit index is `n / 16` and the local time is `(n mod 16)/40`. -/
theorem txSample_eval (p : ModParams) (hp : p.bit_duration = 2/5) (bits : List Char) (n : ℕ)
    (hn : n < bits.length * 16) :
    txSample p bits ((n:ℝ) / 40)
      = computeAlphaP p (((n % 16 : ℕ) : ℝ) / 40) (bits.getD (n / 16) 'x') := by
  have hfloor : ⌊((n:ℝ)/40) / p.bit_duration⌋₊ = n / 16 := by
    rw [hp]
    have harg : ((n:ℝ)/40) / (2/5) = (n:ℝ)/16 := by ring
    rw [harg, nat_floor_sixteenth]
  have hidx : n / 16 < bits.length := (Nat.div_lt_iff_lt_mul (by norm_num)).mpr hn
  have htloc : (n:ℝ)/40 - ((n/16 : ℕ):ℝ) * p.bit_duration = ((n % 16 : ℕ):ℝ)/40 := by
    rw [hp, show ((n:ℝ)) = 16 * ((n/16:ℕ):ℝ) + ((n % 16:ℕ):ℝ) from by
      exact_mod_cast (Nat.div_add_mod n 16).symm]
    ring
  have hget : bits.get ⟨n / 16, hidx⟩ = bits.getD (n / 16) 'x' := by
    rw [List.getD_eq_getElem bits 'x' hidx, List.get_eq_getElem]
  unfold txSample get_current_bit
  simp only [hfloor, hidx, dif_pos]
  rw [hget, htloc]

/-- On any valid parameters with the repository carriers, the clamp in
`compute_alpha` is inactive: validity gives
`delta_level ≤ min(base_level, 1 - base_level)`, so
`base ± delta·sin` already lies in `[0,1]` and the sample is exactly
`base_level + delta_level·sin(2π·carrier·t_local)`. -/
theorem computeAlphaP_lattice (p : ModParams) (hval : p.Valid)
    (hf0 : p.freq0 = 5) (hf1 : p.freq1 = 10) (b : Char) (r : ℕ) :
    computeAlphaP p ((r:ℝ)/40) b = pureSample p.base_level p.delta_level b r := by
  obtain ⟨-, -, -, hbase, hdelta, -⟩ := hval
  rw [Set.mem_Icc] at hbase hdelta
  show max 0 (min 1 (p.base_level + p.delta_level *
      Real.sin (2 * Real.pi * (if b = '0' then p.freq0 else p.freq1) * ((r:ℝ)/40)))) = _
  rw [hf0, hf1]
  have hs1 : Real.sin (2 * Real.pi * (if b = '0' then (5:ℝ) else 10) * ((r:ℝ)/40)) ≤ 1 :=
    Real.sin_le_one _
  have hs2 : -1 ≤ Real.sin (2 * Real.pi * (if b = '0' then (5:ℝ) else 10) * ((r:ℝ)/40)) :=
    Real.neg_one_le_sin _
  have hd0 : 0 ≤ p.delta_level := hdelta.1
  have hdb : p.delta_level ≤ p.base_level := le_trans hdelta.2 (min_le_left _ _)
  have hdb2 : p.delta_level ≤ 1 - p.base_level := le_trans hdelta.2 (min_le_right _ _)
  have hmul1 : p.delta_level *
      Real.sin (2 * Real.pi * (if b = '0' then (5:ℝ) else 10) * ((r:ℝ)/40)) ≤ p.delta_level * 1 :=
    mul_le_mul_of_nonneg_left hs1 hd0
  have hmul2 : p.delta_level * (-1) ≤ p.delta_level *
      Real.sin (2 * Real.pi * (if b = '0' then (5:ℝ) else 10) * ((r:ℝ)/40)) :=
    mul_le_mul_of_nonneg_left hs2 hd0
  rw [min_eq_right (by nlinarith), max_eq_right (by nlinarith)]
  rfl

/-- With `delta_level = 0` every sample is the constant `base_level = 1/2`:
the transmitted waveform carries no information at all. -/
theorem computeAlphaP_degen (t : ℝ) (b : Char) : computeAlphaP degenParams t b = 1/2 := by
  show max 0 (min 1 (1/2 + 0 *
      Real.sin (2 * Real.pi * (if b = '0' then (5:ℝ) else 10) * t))) = 1/2
  rw [zero_mul, add_zero, min_eq_right (by norm_num), max_eq_right (by norm_num)]

theorem samplesPerBit_repo : samplesPerBit (2/5) 40 = 16 := by
  unfold samplesPerBit
  rw [show (2/5 : ℝ) * 40 = ((16:ℕ):ℝ) by norm_num, round_natCast]
  rfl

/-- The 5 Hz carrier sampled at 40 Hz walks 2 cycles per 16-sample window. -/
theorem pureSample_zero (base delta : ℝ) (r : ℕ) :
    pureSample base delta '0' r
      = base + delta * Real.sin (2 * Real.pi * ((2:ℕ):ℝ) * (r:ℝ) / 16) := by
  unfold pureSample
  rw [if_pos rfl, show 2 * Real.pi * (5:ℝ) * ((r:ℝ)/40) = 2 * Real.pi * ((2:ℕ):ℝ) * (r:ℝ) / 16
    from by push_cast; ring]

/-- Any bit other than `'0'` selects the 10 Hz carrier: 4 cycles per window. -/
theorem pureSample_one (base delta : ℝ) (b : Char) (hb : b ≠ '0') (r : ℕ) :
    pureSample base delta b r
      = base + delta * Real.sin (2 * Real.pi * ((4:ℕ):ℝ) * (r:ℝ) / 16) := by
  unfold pureSample
  rw [if_neg hb, show 2 * Real.pi * (10:ℝ) * ((r:ℝ)/40) = 2 * Real.pi * ((4:ℕ):ℝ) * (r:ℝ) / 16
    from by push_cast; ring]

/-- Each 16-sample bit window of the waveform sums to `16·base`. -/
theorem sum_pureSample (base delta : ℝ) (b : Char) (hb : b = '0' ∨ b = '1') :
    ∑ r ∈ Finset.range 16, pureSample base delta b r = 16 * base := by
  have key : ∀ a : ℕ, 0 < a → a < 16 →
      ∑ r ∈ Finset.range 16, (base + delta * Real.sin (2 * Real.pi * (a:ℝ) * (r:ℝ) / 16))
        = 16 * base := by
    intro a h1 h2
    rw [Finset.sum_add_distrib, ← Finset.mul_sum, sin_sum_zero16 a h1 h2, mul_zero, add_zero,
      Finset.sum_const, Finset.card_range, nsmul_eq_mul]
    norm_num
  rcases hb with hb | hb <;> subst hb
  · rw [Finset.sum_congr rfl (fun r _ => pureSample_zero base delta r)]
    exact key 2 (by norm_num) (by norm_num)
  · rw [Finset.sum_congr rfl (fun r _ => pureSample_one base delta '1' (by decide) r)]
    exact key 4 (by norm_num) (by norm_num)

/-- Each 16-sample bit window has centered energy `16·delta²·(1/2) = 8·delta²`. -/
theorem sum_pureSample_sq (base delta : ℝ) (b : Char) (hb : b = '0' ∨ b = '1') :
    ∑ r ∈ Finset.range 16, (pureSample base delta b r - base)^2 = 8 * delta^2 := by
  have key : ∀ a : ℕ, 0 < 2*a → 2*a < 16 →
      ∑ r ∈ Finset.range 16, (delta * Real.sin (2 * Real.pi * (a:ℝ) * (r:ℝ) / 16))^2
        = 8 * delta^2 := by
    intro a h1 h2
    have hpt : ∀ r : ℕ, (delta * Real.sin (2 * Real.pi * (a:ℝ) * (r:ℝ) / 16))^2
        = delta^2/2 - delta^2/2 * Real.cos (2 * Real.pi * ((2*a:ℕ):ℝ) * (r:ℝ) / 16) := by
      intro r
      rw [mul_pow, Real.sin_sq_eq_half_sub,
        show 2 * (2 * Real.pi * (a:ℝ) * (r:ℝ) / 16) = 2 * Real.pi * ((2*a:ℕ):ℝ) * (r:ℝ) / 16
          from by push_cast; ring]
      ring
    rw [Finset.sum_congr rfl (fun r _ => hpt r), Finset.sum_sub_distrib, ← Finset.mul_sum,
      cos_sum_zero16 (2*a) h1 h2, mul_zero, sub_zero, Finset.sum_const, Finset.card_range,
      nsmul_eq_mul]
    push_cast
    ring
  rcases hb with hb | hb <;> subst hb
  · have hpt : ∀ r ∈ Finset.range 16, (pureSample base delta '0' r - base)^2
        = (delta * Real.sin (2 * Real.pi * ((2:ℕ):ℝ) * (r:ℝ) / 16))^2 := by
      intro r _
      rw [pureSample_zero]
      ring
    rw [Finset.sum_congr rfl hpt]
    exact key 2 (by norm_num) (by norm_num)
  · have hpt : ∀ r ∈ Finset.range 16, (pureSample base delta '1' r - base)^2
        = (delta * Real.sin (2 * Real.pi * ((4:ℕ):ℝ) * (r:ℝ) / 16))^2 := by
      intro r _
      rw [pureSample_one base delta '1' (by decide)]
      ring
    rw [Finset.sum_congr rfl hpt]
    exact key 4 (by norm_num) (by norm_num)

/-- The sampled stream on any valid lattice parameters, per sample index. -/
theorem txStream_lattice (p : ModParams) (hval : p.Valid)
    (hf0 : p.freq0 = 5) (hf1 : p.freq1 = 10) (hdur : p.bit_duration = 2/5)
    (bits : List Char) :
    txStream p bits 40 (bits.length * 16)
      = (List.range (bits.length * 16)).map
          (fun n : ℕ => pureSample p.base_level p.delta_level (bits.getD (n/16) 'x') (n % 16)) := by
  unfold txStream
  apply List.map_congr_left
  intro n hn
  rw [txSample_eval p hdur bits n (List.mem_range.mp hn),
    computeAlphaP_lattice p hval hf0 hf1]

/-- Per-window evaluation of a sum over the whole sampled stream. -/
theorem grid_sum_eval (bits : List Char) (hb : ∀ b ∈ bits, b = '0' ∨ b = '1')
    (G : Char → ℕ → ℝ) (V : ℝ)
    (hV : ∀ b, (b = '0' ∨ b = '1') → ∑ r ∈ Finset.range 16, G b r = V) :
    ∑ n ∈ Finset.range (bits.length * 16), G (bits.getD (n/16) 'x') (n % 16)
      = bits.length * V := by
  rw [sum_grid]
  have hj : ∀ j ∈ Finset.range bits.length,
      (∑ r ∈ Finset.range 16, G (bits.getD ((j*16 + r)/16) 'x') ((j*16 + r) % 16)) = V := by
    intro j hjm
    have hjlen := Finset.mem_range.mp hjm
    have hgd : ∀ r ∈ Finset.range 16,
        G (bits.getD ((j*16+r)/16) 'x') ((j*16+r) % 16) = G (bits.getD j 'x') r := by
      intro r hr
      have hr16 := Finset.mem_range.mp hr
      have hdiv : (j*16 + r)/16 = j := by omega
      have hmod : (j*16 + r) % 16 = r := by omega
      rw [hdiv, hmod]
    rw [Finset.sum_congr rfl hgd]
    apply hV
    rw [List.getD_eq_getElem bits 'x' hjlen]
    exact hb _ (List.getElem_mem _)
  rw [Finset.sum_congr rfl hj, Finset.sum_const, Finset.card_range, nsmul_eq_mul]

/-! ## Statistics of the sampled stream -/

/-- The sampled stream has mean exactly `base`, whatever the bit string. -/
theorem stream_mean (base delta : ℝ) (bits : List Char) (hne : bits ≠ [])
    (hb : ∀ b ∈ bits, b = '0' ∨ b = '1') :
    npMean ((List.range (bits.length * 16)).map
      (fun n : ℕ => pureSample base delta (bits.getD (n/16) 'x') (n % 16))) = base := by
  have hN : (bits.length : ℝ) ≠ 0 := by
    have : 0 < bits.length := List.length_pos.mpr hne
    exact_mod_cast Nat.pos_iff_ne_zero.mp this
  unfold npMean
  rw [sum_map_range, List.length_map, List.length_range,
    grid_sum_eval bits hb (fun b r => pureSample base delta b r) (16 * base)
      (fun b hb2 => sum_pureSample base delta b hb2)]
  push_cast
  field_simp
  ring

/-- The sampled stream has population variance exactly `delta²/2`. -/
theorem stream_var (base delta : ℝ) (bits : List Char) (hne : bits ≠ [])
    (hb : ∀ b ∈ bits, b = '0' ∨ b = '1') :
    npVar ((List.range (bits.length * 16)).map
      (fun n : ℕ => pureSample base delta (bits.getD (n/16) 'x') (n % 16))) = delta^2/2 := by
  have hN : (bits.length : ℝ) ≠ 0 := by
    have : 0 < bits.length := List.length_pos.mpr hne
    exact_mod_cast Nat.pos_iff_ne_zero.mp this
  unfold npVar
  rw [stream_mean base delta bits hne hb, List.map_map, sum_map_range, List.length_map,
    List.length_range]
  simp only [Function.comp_apply]
  rw [grid_sum_eval bits hb (fun b r => (pureSample base delta b r - base)^2) (8 * delta^2)
      (fun b hb2 => sum_pureSample_sq base delta b hb2)]
  push_cast
  field_simp
  ring

/-- The normalized stream, sample by sample: the centered tone scaled by
`1/√(delta²/2)`. -/
theorem normalize_stream (base delta : ℝ) (bits : List Char) (hne : bits ≠ [])
    (hb : ∀ b ∈ bits, b = '0' ∨ b = '1') :
    normalize ((List.range (bits.length * 16)).map
        (fun n : ℕ => pureSample base delta (bits.getD (n/16) 'x') (n % 16)))
      = (List.range (bits.length * 16)).map
          (fun n : ℕ => (delta / Real.sqrt (delta^2/2)) * Real.sin (2 * Real.pi *
            ((if bits.getD (n/16) 'x' = '0' then (2:ℕ) else 4) : ℝ) * ((n % 16 : ℕ) : ℝ) / 16)) := by
  have hN : 0 < bits.length := List.length_pos.mpr hne
  have hlen : ((((List.range (bits.length * 16)).map
      (fun n : ℕ => pureSample base delta (bits.getD (n/16) 'x') (n % 16)))).length : ℝ) ≠ 0 := by
    rw [List.length_map, List.length_range]
    have : 0 < bits.length * 16 := by omega
    exact_mod_cast Nat.pos_iff_ne_zero.mp this
  rw [normalize_formula _ hlen, stream_mean base delta bits hne hb, npStd,
    stream_var base delta bits hne hb, List.map_map]
  apply List.map_congr_left
  intro n hn
  simp only [Function.comp_apply]
  have hbn : bits.getD (n/16) 'x' = '0' ∨ bits.getD (n/16) 'x' = '1' := by
    have hn16 := List.mem_range.mp hn
    have hidx : n / 16 < bits.length := (Nat.div_lt_iff_lt_mul (by norm_num)).mpr hn16
    rw [List.getD_eq_getElem bits 'x' hidx]
    exact hb _ (List.getElem_mem _)
  rcases hbn with hb0 | hb1
  · rw [hb0, pureSample_zero, if_pos rfl]
    ring
  · rw [hb1, pureSample_one base delta '1' (by decide), if_neg (by decide : ¬ ('1' : Char) = '0')]
    ring

/-- Slicing window `j` out of a sampled stream. -/
theorem slice_map_range (N j : ℕ) (f : ℕ → ℝ) (hj : j < N) :
    ((((List.range (N * 16)).map f).drop (j * 16)).take 16)
      = (List.range 16).map (fun r => f (j * 16 + r)) := by
  apply List.ext_getElem
  · rw [List.length_take, List.length_drop, List.length_map, List.length_range,
      List.length_map, List.length_range]
    omega
  · intro i h1 h2
    rw [List.getElem_take, List.getElem_drop, List.getElem_map, List.getElem_map,
      List.getElem_range, List.getElem_range]

/-- When the signal holds exactly `N` whole windows the segmenter returns
all of them. -/
theorem segments_full (Z : List ℝ) (N : ℕ) (hZ : Z.length = N * 16) :
    segments Z 16 N = (List.range N).map (fun j => (Z.drop (j * 16)).take 16) := by
  have hcond : ∀ i, (i * 16 + 16 ≤ Z.length ↔ i < N) := by
    intro i
    rw [hZ]
    omega
  rw [segments, segmentsAux_closed Z 16 N hcond N 0]
  have hmin : min N (N - 0) = N := by omega
  rw [hmin]
  apply List.map_congr_left
  intro j _
  simp

/-! ## The DFT of a Hann-windowed pure tone window -/

theorem getD_map_range (n m : ℕ) (f : ℕ → ℝ) (hm : m < n) :
    ((List.range n).map f).getD m 0 = f m := by
  rw [List.getD_eq_getElem _ _ (by simpa using hm), List.getElem_map, List.getElem_range]

theorem rfftBin_eval (f : ℕ → ℝ) (k : ℕ) :
    rfftBin ((List.range 16).map f) k
      = ∑ m ∈ Finset.range 16, ((f m : ℝ) : ℂ)
          * Complex.exp (-(2 * (Real.pi : ℂ) * Complex.I * k * m) / ((16:ℕ) : ℂ)) := by
  unfold rfftBin
  rw [List.length_map, List.length_range]
  exact Finset.sum_congr rfl (fun m hm => by
    rw [getD_map_range 16 m f (Finset.mem_range.mp hm)])

theorem zipWith_map_range (n : ℕ) (f g : ℕ → ℝ) :
    List.zipWith (fun x y => x * y) ((List.range n).map f) ((List.range n).map g)
      = (List.range n).map (fun m => f m * g m) := by
  apply List.ext_getElem
  · simp
  · intro i h1 h2
    simp [List.getElem_zipWith]

/-- Applying the periodic Hann window to a pure tone window, elementwise. -/
theorem windowed_tone (c : ℝ) (a : ℕ) :
    List.zipWith (fun x y => x * y) (toneWindow c a) (hann 16)
      = (List.range 16).map (fun m : ℕ =>
          c * Real.sin (2 * Real.pi * (a:ℝ) * (m:ℝ) / 16)
            * (1/2 - 1/2 * Real.cos (2 * Real.pi * ((1:ℕ):ℝ) * (m:ℝ) / 16))) := by
  unfold toneWindow hann
  rw [zipWith_map_range]
  apply List.map_congr_left
  intro m _
  have harg : 2 * Real.pi * (m:ℝ) / ((16:ℕ):ℝ) = 2 * Real.pi * ((1:ℕ):ℝ) * (m:ℝ) / 16 := by
    push_cast
    ring
  rw [harg]

/-- A Hann-windowed 2-cycle tone (the '0' carrier) has no energy at all in
DFT bin 4 (the '1' carrier bin). -/
theorem dft_tone2_bin4 (c : ℝ) :
    rfftBin ((List.range 16).map (fun m : ℕ =>
      c * Real.sin (2 * Real.pi * ((2:ℕ):ℝ) * (m:ℝ) / 16)
        * (1/2 - 1/2 * Real.cos (2 * Real.pi * ((1:ℕ):ℝ) * (m:ℝ) / 16)))) 4 = 0 := by
  rw [rfftBin_eval]
  have key : ∀ m ∈ Finset.range 16,
      ((c * Real.sin (2 * Real.pi * ((2:ℕ):ℝ) * (m:ℝ) / 16)
        * (1/2 - 1/2 * Real.cos (2 * Real.pi * ((1:ℕ):ℝ) * (m:ℝ) / 16)) : ℝ) : ℂ)
        * Complex.exp (-(2 * (Real.pi : ℂ) * Complex.I * ((4:ℕ):ℂ) * (m:ℂ)) / ((16:ℕ) : ℂ))
      = (c : ℂ) * Complex.I *
          (zeta16^(26*m)/4 - zeta16^(27*m)/8 - zeta16^(41*m)/8
            - zeta16^(14*m)/4 + zeta16^(15*m)/8 + zeta16^(29*m)/8) := by
    intro m _
    simp only [Complex.ofReal_mul, Complex.ofReal_sub, Complex.ofReal_div, Complex.ofReal_one,
      Complex.ofReal_ofNat]
    rw [sin_bridge 2 m (by norm_num), cos_bridge 1 m (by norm_num), exp_dft 4 m (by norm_num)]
    simp only [← pow_mul, show (16-2 : ℕ) = 14 from rfl, show (16-1 : ℕ) = 15 from rfl,
      show (16-4 : ℕ) = 12 from rfl]
    ring
  rw [Finset.sum_congr rfl key, ← Finset.mul_sum]
  have hsplit : ∑ m ∈ Finset.range 16,
      (zeta16^(26*m)/4 - zeta16^(27*m)/8 - zeta16^(41*m)/8
        - zeta16^(14*m)/4 + zeta16^(15*m)/8 + zeta16^(29*m)/8) = 0 := by
    simp only [pow_mul, Finset.sum_sub_distrib, Finset.sum_add_distrib, ← Finset.sum_div,
      zeta16_geom]
    norm_num
  rw [hsplit, mul_zero]

/-- A Hann-windowed 4-cycle tone (the '1' carrier) has no energy at all in
DFT bin 2 (the '0' carrier bin). -/
theorem dft_tone4_bin2 (c : ℝ) :
    rfftBin ((List.range 16).map (fun m : ℕ =>
      c * Real.sin (2 * Real.pi * ((4:ℕ):ℝ) * (m:ℝ) / 16)
        * (1/2 - 1/2 * Real.cos (2 * Real.pi * ((1:ℕ):ℝ) * (m:ℝ) / 16)))) 2 = 0 := by
  rw [rfftBin_eval]
  have key : ∀ m ∈ Finset.range 16,
      ((c * Real.sin (2 * Real.pi * ((4:ℕ):ℝ) * (m:ℝ) / 16)
        * (1/2 - 1/2 * Real.cos (2 * Real.pi * ((1:ℕ):ℝ) * (m:ℝ) / 16)) : ℝ) : ℂ)
        * Complex.exp (-(2 * (Real.pi : ℂ) * Complex.I * ((2:ℕ):ℂ) * (m:ℂ)) / ((16:ℕ) : ℂ))
      = (c : ℂ) * Complex.I *
          (zeta16^(26*m)/4 - zeta16^(27*m)/8 - zeta16^(41*m)/8
            - zeta16^(18*m)/4 + zeta16^(19*m)/8 + zeta16^(33*m)/8) := by
    intro m _
    simp only [Complex.ofReal_mul, Complex.ofReal_sub, Complex.ofReal_div, Complex.ofReal_one,
      Complex.ofReal_ofNat]
    rw [sin_bridge 4 m (by norm_num), cos_bridge 1 m (by norm_num), exp_dft 2 m (by norm_num)]
    simp only [← pow_mul, show (16-4 : ℕ) = 12 from rfl, show (16-1 : ℕ) = 15 from rfl,
      show (16-2 : ℕ) = 14 from rfl]
    ring
  rw [Finset.sum_congr rfl key, ← Finset.mul_sum]
  have hsplit : ∑ m ∈ Finset.range 16,
      (zeta16^(26*m)/4 - zeta16^(27*m)/8 - zeta16^(41*m)/8
        - zeta16^(18*m)/4 + zeta16^(19*m)/8 + zeta16^(33*m)/8) = 0 := by
    simp only [pow_mul, Finset.sum_sub_distrib, Finset.sum_add_distrib, ← Finset.sum_div,
      zeta16_geom]
    norm_num
  rw [hsplit, mul_zero]

/-- A Hann-windowed 4-cycle tone of amplitude `c` has DFT value `-4c·i` at
its own bin 4, hence magnitude `4c` there. -/
theorem dft_tone4_bin4 (c : ℝ) :
    rfftBin ((List.range 16).map (fun m : ℕ =>
      c * Real.sin (2 * Real.pi * ((4:ℕ):ℝ) * (m:ℝ) / 16)
        * (1/2 - 1/2 * Real.cos (2 * Real.pi * ((1:ℕ):ℝ) * (m:ℝ) / 16)))) 4
      = -(4 * (c:ℂ)) * Complex.I := by
  rw [rfftBin_eval]
  have key : ∀ m ∈ Finset.range 16,
      ((c * Real.sin (2 * Real.pi * ((4:ℕ):ℝ) * (m:ℝ) / 16)
        * (1/2 - 1/2 * Real.cos (2 * Real.pi * ((1:ℕ):ℝ) * (m:ℝ) / 16)) : ℝ) : ℂ)
        * Complex.exp (-(2 * (Real.pi : ℂ) * Complex.I * ((4:ℕ):ℂ) * (m:ℂ)) / ((16:ℕ) : ℂ))
      = (c : ℂ) * Complex.I *
          (zeta16^(24*m)/4 - zeta16^(25*m)/8 - zeta16^(39*m)/8
            - zeta16^(16*m)/4 + zeta16^(17*m)/8 + zeta16^(31*m)/8) := by
    intro m _
    simp only [Complex.ofReal_mul, Complex.ofReal_sub, Complex.ofReal_div, Complex.ofReal_one,
      Complex.ofReal_ofNat]
    rw [sin_bridge 4 m (by norm_num), cos_bridge 1 m (by norm_num), exp_dft 4 m (by norm_num)]
    simp only [← pow_mul, show (16-4 : ℕ) = 12 from rfl, show (16-1 : ℕ) = 15 from rfl]
    ring
  rw [Finset.sum_congr rfl key, ← Finset.mul_sum]
  have hsplit : ∑ m ∈ Finset.range 16,
      (zeta16^(24*m)/4 - zeta16^(25*m)/8 - zeta16^(39*m)/8
        - zeta16^(16*m)/4 + zeta16^(17*m)/8 + zeta16^(31*m)/8) = -4 := by
    simp only [pow_mul, Finset.sum_sub_distrib, Finset.sum_add_distrib, ← Finset.sum_div,
      zeta16_geom]
    norm_num
  rw [hsplit]
  ring

/-- Band energies are sums of magnitudes, hence nonnegative. -/
theorem bandEnergy_nonneg (x : List ℝ) (fs f tol : ℝ) : 0 ≤ bandEnergy x fs f tol :=
  Finset.sum_nonneg (fun k _ => AbsoluteValue.nonneg Complex.abs _)

/-- At `fs = 40` and window length 16 the band `[5-1, 5+1]` holds exactly
DFT bin 2 (frequency 5 Hz; bin spacing 2.5 Hz). -/
theorem bandEnergy_band0 (x : List ℝ) (hx : x.length = 16) :
    bandEnergy x 40 5 1 = spectrum x 2 := by
  unfold bandEnergy
  rw [hx]
  have hfilter : (Finset.range (16/2+1)).filter
      (fun k : ℕ => (5:ℝ) - 1 ≤ (k:ℝ) * 40 / ((16:ℕ):ℝ) ∧ (k:ℝ) * 40 / ((16:ℕ):ℝ) ≤ 5 + 1)
      = {2} := by
    ext k
    simp only [Finset.mem_filter, Finset.mem_range, Finset.mem_singleton]
    constructor
    · rintro ⟨hk, h1, h2⟩
      interval_cases k <;> norm_num at h1 h2 ⊢
    · rintro rfl
      norm_num
  rw [hfilter, Finset.sum_singleton]

/-- At `fs = 40` and window length 16 the band `[10-1, 10+1]` holds exactly
DFT bin 4 (frequency 10 Hz). -/
theorem bandEnergy_band1 (x : List ℝ) (hx : x.length = 16) :
    bandEnergy x 40 10 1 = spectrum x 4 := by
  unfold bandEnergy
  rw [hx]
  have hfilter : (Finset.range (16/2+1)).filter
      (fun k : ℕ => (10:ℝ) - 1 ≤ (k:ℝ) * 40 / ((16:ℕ):ℝ) ∧ (k:ℝ) * 40 / ((16:ℕ):ℝ) ≤ 10 + 1)
      = {4} := by
    ext k
    simp only [Finset.mem_filter, Finset.mem_range, Finset.mem_singleton]
    constructor
    · rintro ⟨hk, h1, h2⟩
      interval_cases k <;> norm_num at h1 h2 ⊢
    · rintro rfl
      norm_num
  rw [hfilter, Finset.sum_singleton]

/-- The classifier decides `'0'` on a normalized, Hann-windowed window of
the 5 Hz carrier: its energy in the 10 Hz band is exactly zero. -/
theorem classify_tone0 (c : ℝ) :
    classifySeg 40 5 10 1 16 (toneWindow c 2) = '0' := by
  show (if bandEnergy (List.zipWith (fun x y => x * y) (toneWindow c 2) (hann 16)) 40 5 1 ≥
      bandEnergy (List.zipWith (fun x y => x * y) (toneWindow c 2) (hann 16)) 40 10 1
    then '0' else '1') = '0'
  rw [windowed_tone c 2]
  have hlen : ((List.range 16).map (fun m : ℕ =>
      c * Real.sin (2 * Real.pi * ((2:ℕ):ℝ) * (m:ℝ) / 16)
        * (1/2 - 1/2 * Real.cos (2 * Real.pi * ((1:ℕ):ℝ) * (m:ℝ) / 16)))).length = 16 := by
    simp
  rw [bandEnergy_band1 _ hlen]
  have hz : spectrum ((List.range 16).map (fun m : ℕ =>
      c * Real.sin (2 * Real.pi * ((2:ℕ):ℝ) * (m:ℝ) / 16)
        * (1/2 - 1/2 * Real.cos (2 * Real.pi * ((1:ℕ):ℝ) * (m:ℝ) / 16)))) 4 = 0 := by
    unfold spectrum
    rw [dft_tone2_bin4]
    simp
  rw [hz, if_pos (bandEnergy_nonneg _ 40 5 1)]

/-- The classifier decides `'1'` on a normalized, Hann-windowed window of
the 10 Hz carrier: its 5 Hz-band energy is zero while its 10 Hz-band
energy is `4c > 0`. -/
theorem classify_tone1 (c : ℝ) (hc : 0 < c) :
    classifySeg 40 5 10 1 16 (toneWindow c 4) = '1' := by
  show (if bandEnergy (List.zipWith (fun x y => x * y) (toneWindow c 4) (hann 16)) 40 5 1 ≥
      bandEnergy (List.zipWith (fun x y => x * y) (toneWindow c 4) (hann 16)) 40 10 1
    then '0' else '1') = '1'
  rw [windowed_tone c 4]
  have hlen : ((List.range 16).map (fun m : ℕ =>
      c * Real.sin (2 * Real.pi * ((4:ℕ):ℝ) * (m:ℝ) / 16)
        * (1/2 - 1/2 * Real.cos (2 * Real.pi * ((1:ℕ):ℝ) * (m:ℝ) / 16)))).length = 16 := by
    simp
  rw [bandEnergy_band0 _ hlen, bandEnergy_band1 _ hlen]
  have he0 : spectrum ((List.range 16).map (fun m : ℕ =>
      c * Real.sin (2 * Real.pi * ((4:ℕ):ℝ) * (m:ℝ) / 16)
        * (1/2 - 1/2 * Real.cos (2 * Real.pi * ((1:ℕ):ℝ) * (m:ℝ) / 16)))) 2 = 0 := by
    unfold spectrum
    rw [dft_tone4_bin2]
    simp
  have he1 : spectrum ((List.range 16).map (fun m : ℕ =>
      c * Real.sin (2 * Real.pi * ((4:ℕ):ℝ) * (m:ℝ) / 16)
        * (1/2 - 1/2 * Real.cos (2 * Real.pi * ((1:ℕ):ℝ) * (m:ℝ) / 16)))) 4 = 4 * c := by
    unfold spectrum
    rw [dft_tone4_bin4]
    have hcast : -(4 * (c:ℂ)) * Complex.I = ((-(4*c) : ℝ) : ℂ) * Complex.I := by
      push_cast
      ring
    rw [hcast, map_mul, Complex.abs_I, Complex.abs_ofReal, mul_one, abs_neg,
      abs_of_pos (by linarith : (0:ℝ) < 4*c)]
  rw [he0, he1, if_neg (by simp only [ge_iff_le, not_le]; linarith)]

/-- Window `j` of the normalized stream is a pure tone window of amplitude
`c`, with 2 cycles for bit `'0'` and 4 cycles otherwise. -/
theorem stream_window (bits : List Char) (c : ℝ) (j : ℕ) (hj : j < bits.length) :
    (((List.range (bits.length * 16)).map
        (fun n : ℕ => c * Real.sin (2 * Real.pi *
          ((if bits.getD (n/16) 'x' = '0' then (2:ℕ) else 4) : ℝ)
            * ((n % 16 : ℕ) : ℝ) / 16))).drop (j*16)).take 16
      = toneWindow c (if bits.getD j 'x' = '0' then 2 else 4) := by
  rw [slice_map_range bits.length j _ hj]
  unfold toneWindow
  apply List.map_congr_left
  intro r hr
  have hr16 := List.mem_range.mp hr
  have hdiv : (j*16 + r)/16 = j := by omega
  have hmod : (j*16 + r) % 16 = r := by omega
  rw [hdiv, hmod]
  by_cases hb0 : bits.getD j 'x' = '0'
  · rw [if_pos hb0, if_pos hb0]
  · rw [if_neg hb0, if_neg hb0]
    norm_num

/-- Scoring a decode that equals the transmitted string: zero bit errors. -/
theorem score_self_ber (l : List Char) (hl : l ≠ []) :
    (score l l).map ScoreReport.bit_error_rate = some 0 := by
  have hpos : 0 < l.length := List.length_pos.mpr hl
  have hmin : ¬ (min l.length l.length = 0) := by
    rw [min_self]
    omega
  have hc : correctCount l l = l.length := by
    unfold correctCount
    rw [min_self]
    have hall : ∀ a ∈ List.range l.length,
        (fun i => decide (l.getD i ' ' = l.getD i ' ')) a = true := by
      intro a _
      simp
    rw [List.countP_eq_length.mpr hall, List.length_range]
  unfold score
  rw [if_neg hmin]
  have hq : (l.length : ℚ) ≠ 0 := by
    exact_mod_cast Nat.pos_iff_ne_zero.mp hpos
  simp only [Option.map_some']
  congr 1
  show 1 - (correctCount l l : ℚ) / ((min l.length l.length : ℕ) : ℚ) = 0
  rw [hc, min_self]
  field_simp

/-- Amended C1 (round-trip): for every nonempty binary bit string and every
valid `ModulationParameters` carrying the repository's protocol constants
(freq0 = 5 Hz, freq1 = 10 Hz, bit_duration = 0.4 s) with a nonzero
modulation depth (`delta_level > 0`, any valid `base_level`), noiseless
sampling at `fs = 40 = 4·freq1` with band tolerance 1 Hz recovers the bit
string exactly and the evaluator reports `bit_error_rate = 0`. -/
theorem roundTrip_lattice_exact (p : ModParams) (hval : p.Valid)
    (hf0 : p.freq0 = 5) (hf1 : p.freq1 = 10) (hdur : p.bit_duration = 2/5)
    (hdelta : 0 < p.delta_level)
    (bits : List Char) (hne : bits ≠ []) (hb : ∀ b ∈ bits, b = '0' ∨ b = '1') :
    roundTrip p 40 1 bits = bits
    ∧ (score bits (roundTrip p 40 1 bits)).map ScoreReport.bit_error_rate = some 0 := by
  have hcpos : 0 < p.delta_level / Real.sqrt (p.delta_level^2/2) :=
    div_pos hdelta (Real.sqrt_pos.mpr (div_pos (pow_pos hdelta 2) (by norm_num)))
  have hdec : roundTrip p 40 1 bits = bits := by
    unfold roundTrip decodeBits
    rw [hdur, samplesPerBit_repo, hf0, hf1]
    show List.map (classifySeg 40 5 10 1 16)
        (segments (normalize (txStream p bits 40 (bits.length * 16))) 16 bits.length)
      = bits
    rw [txStream_lattice p hval hf0 hf1 hdur bits,
      normalize_stream p.base_level p.delta_level bits hne hb,
      segments_full _ bits.length (by simp), List.map_map]
    apply List.ext_getElem
    · simp
    · intro j h1 h2
      rw [List.getElem_map, List.getElem_range]
      simp only [Function.comp_apply]
      rw [stream_window bits (p.delta_level / Real.sqrt (p.delta_level^2/2)) j h2]
      have hgd : bits.getD j 'x' = bits[j] := List.getD_eq_getElem bits 'x' h2
      rcases hb (bits[j]) (List.getElem_mem _) with h0 | h1b
      · rw [hgd, h0, if_pos rfl, classify_tone0]
      · rw [hgd, h1b, if_neg (by decide : ¬ ('1' : Char) = '0'),
          classify_tone1 _ hcpos]
  exact ⟨hdec, by rw [hdec]; exact score_self_ber bits hne⟩

/-- Witness for the amended C1 at the repository parameters and
`bits = ['0','1']`. -/
theorem roundTrip_lattice_exact_witness :
    repoParams.Valid ∧ repoParams.freq0 = 5 ∧ repoParams.freq1 = 10
    ∧ repoParams.bit_duration = 2/5 ∧ 0 < repoParams.delta_level
    ∧ (['0','1'] ≠ ([] : List Char)) ∧ (∀ b ∈ (['0','1'] : List Char), b = '0' ∨ b = '1')
    ∧ roundTrip repoParams 40 1 ['0','1'] = ['0','1'] := by
  have hval : repoParams.Valid := by
    unfold ModParams.Valid repoParams
    norm_num [Set.mem_Icc]
  have hdelta : 0 < repoParams.delta_level := by
    show (0:ℝ) < 1/10
    norm_num
  have h1 : (['0','1'] : List Char) ≠ [] := by decide
  have h2 : ∀ b ∈ (['0','1'] : List Char), b = '0' ∨ b = '1' := by decide
  exact ⟨hval, rfl, rfl, rfl, hdelta, h1, h2,
    (roundTrip_lattice_exact repoParams hval rfl rfl rfl hdelta ['0','1'] h1 h2).1⟩

/-! ## The degenerate round trip: `delta_level = 0` -/

/-- With `delta_level = 0` every transmitted sample is the constant 1/2. -/
theorem txStream_degen : txStream degenParams ['0','1'] 40 32 = List.replicate 32 (1/2) := by
  unfold txStream
  have hpt : ∀ n ∈ List.range 32,
      txSample degenParams ['0','1'] ((n:ℝ)/40) = 1/2 := by
    intro n hn
    have hn32 := List.mem_range.mp hn
    rw [txSample_eval degenParams rfl ['0','1'] n (by simpa using hn32), computeAlphaP_degen]
  rw [List.map_congr_left hpt, List.map_const', List.length_range]

/-- Normalizing a constant stream yields a constant stream: the code maps
`x ↦ (x − mean)/std` over identical elements, so all outputs share one
common value.  Only this structural fact is used below — it holds whatever
value the zero-variance division takes (NaN in numpy, 0 in the real-valued
model), because every element undergoes the same computation. -/
theorem normalize_replicate_form (n : ℕ) (c : ℝ) :
    normalize (List.replicate n c)
      = List.replicate n ((c - npMean (List.replicate n c)) /
          npStd (List.replicate n (c - npMean (List.replicate n c)))) := by
  show ((List.replicate n c).map (fun x => x - npMean (List.replicate n c))).map
      (fun x => x / npStd ((List.replicate n c).map
        (fun x => x - npMean (List.replicate n c))))
      = _
  simp only [List.map_replicate]

/-- Counterexample to C1 as stated: `degenParams` (the repository constants
with `delta_level = 0`) is a valid `ModulationParameters` per spec §3 and
`fs = 40 ≥ 4·freq1`, yet the round trip on `"01"` fails.  The
`delta_level = 0` waveform is constant, so after normalization all samples
carry one common value — whatever the zero-variance division yields (NaN
under numpy, where every comparison then fails and each window decodes
`'1'`) — hence both windows are identical, both decoded bits are equal, the
output cannot be `"01"`, and the bit error rate cannot be 0.  Only these
consequences, shared by both division semantics, are asserted. -/
theorem roundTrip_fails_degenerate :
    degenParams.Valid
    ∧ (40:ℝ) ≥ 4 * degenParams.freq1
    ∧ roundTrip degenParams 40 1 ['0','1'] ≠ ['0','1']
    ∧ (score ['0','1'] (roundTrip degenParams 40 1 ['0','1'])).map ScoreReport.bit_error_rate
        ≠ some 0 := by
  obtain ⟨x, hx⟩ : ∃ x, roundTrip degenParams 40 1 ['0','1'] = [x, x] := by
    unfold roundTrip decodeBits
    rw [show degenParams.bit_duration = 2/5 from rfl, samplesPerBit_repo,
      show degenParams.freq0 = 5 from rfl, show degenParams.freq1 = 10 from rfl]
    show ∃ x, List.map (classifySeg 40 5 10 1 16)
        (segments (normalize (txStream degenParams ['0','1'] 40 32)) 16 2) = [x, x]
    rw [txStream_degen, normalize_replicate_form 32 (1/2)]
    obtain ⟨e, he⟩ : ∃ e : ℝ, ((1:ℝ)/2 - npMean (List.replicate 32 (1/2))) /
        npStd (List.replicate 32 ((1:ℝ)/2 - npMean (List.replicate 32 (1/2)))) = e := ⟨_, rfl⟩
    rw [he, segments_full _ 2 (by simp), show List.range 2 = [0, 1] from rfl]
    refine ⟨classifySeg 40 5 10 1 16 (List.replicate 16 e), ?_⟩
    have hw : ∀ j : ℕ, j < 2 → ((List.replicate 32 e).drop (j*16)).take 16
        = List.replicate 16 e := by
      intro j hj
      rw [List.drop_replicate, List.take_replicate]
      congr 1
      omega
    simp only [List.map_cons, List.map_nil]
    rw [hw 0 (by norm_num), hw 1 (by norm_num)]
  have hvalid : degenParams.Valid := by
    unfold ModParams.Valid degenParams
    norm_num [Set.mem_Icc]
  have hfs : (40:ℝ) ≥ 4 * degenParams.freq1 := by
    show (40:ℝ) ≥ 4 * 10
    norm_num
  refine ⟨hvalid, hfs, ?_, ?_⟩
  · rw [hx]
    intro h
    rw [List.cons.injEq, List.cons.injEq] at h
    obtain ⟨ha, hb2, -⟩ := h
    rw [ha] at hb2
    exact absurd hb2 (by decide)
  · rw [hx]
    intro hber
    have hmap : (score ['0','1'] ([x, x] : List Char)).map ScoreReport.bit_error_rate
        = some (1 - (correctCount ['0','1'] [x, x] : ℚ) / ((2:ℕ) : ℚ)) := rfl
    rw [hmap, Option.some.injEq] at hber
    have hc2 : correctCount ['0','1'] [x, x] = 2 := by
      have h2q : ((2:ℕ):ℚ) = 2 := by norm_num
      rw [h2q] at hber
      have hcq : (correctCount ['0','1'] [x, x] : ℚ) = 2 := by linarith
      exact_mod_cast hcq
    have hall : ∀ a ∈ List.range 2, (fun i =>
        decide ((['0','1'] : List Char).getD i ' ' = ([x, x] : List Char).getD i ' ')) a
          = true := by
      apply List.countP_eq_length.mp
      rw [List.length_range]
      exact hc2
    have h0 : ('0' : Char) = x := of_decide_eq_true (hall 0 (by decide))
    have h1 : ('1' : Char) = x := of_decide_eq_true (hall 1 (by decide))
    rw [← h0] at h1
    exact absurd h1 (by decide)

end BFSK
